import Mathlib

/-
A shallow embedding of `check_missing_files.py`: a utility that compares two
directories by filename stem (extension ignored) and reports, or optionally
moves, files whose stem appears on only one side.
-/

/-- A single directory entry as yielded by `os.scandir`: its name and the
result of `entry.is_file()`. -/
structure DirEntry where
  name : String
  isFile : Bool
deriving DecidableEq, Repr

/-- Python's `name.startswith('.')` for a filename: its first character is a
dot (Python strings are sequences of code points, as is `String.data`). -/
def startswithDot (s : String) : Bool := s.data.head? == some '.'

/-- The filter applied by `get_stem_map` to each entry:
`entry.is_file() and not entry.name.startswith('.')`. -/
def accept (e : DirEntry) : Bool := e.isFile && !(startswithDot e.name)

/-- Splits a list of characters at its last dot: `lastDotSplit cs = some (b, a)`
means `cs = b ++ '.' :: a` with no dot in `a`; `none` means `cs` has no dot. -/
def lastDotSplit : List Char → Option (List Char × List Char)
  | [] => none
  | c :: rest =>
    match lastDotSplit rest with
    | some (b, a) => some (c :: b, a)
    | none => if c = '.' then some ([], rest) else none

/-- Python's `os.path.splitext(name)[0]` for a bare filename: the name cut at
its last dot, except that a last dot preceded only by dots does not start an
extension (so `".bashrc"` and `"..."` are their own stems). -/
def splitextStem (name : String) : String :=
  match lastDotSplit name.data with
  | none => name
  | some (b, _) => if b.all (· == '.') then name else ⟨b⟩

/-- A StemMap: Python's insertion-ordered `dict` from stem to the list of
filenames sharing that stem, modelled as an association list. -/
abbrev StemMap := List (String × List String)

/-- Python `stem_map[stem]` as a partial lookup (first matching key). -/
def lookupStem : StemMap → String → Option (List String)
  | [], _ => none
  | p :: rest, s => if p.1 = s then some p.2 else lookupStem rest s

/-- The keys of a StemMap, in insertion order (`stem_map.keys()`). -/
def keys (m : StemMap) : List String := m.map (fun p => p.1)

/-- One update step of the scan loop: `if stem not in stem_map:
stem_map[stem] = []` followed by `stem_map[stem].append(entry.name)`.  An
existing key keeps its position and its list grows at the end; a new key is
appended. -/
def addToStemMap : StemMap → String → String → StemMap
  | [], stem, f => [(stem, [f])]
  | p :: rest, stem, f =>
    if p.1 = stem then (p.1, p.2 ++ [f]) :: rest
    else p :: addToStemMap rest stem f

/-- The mutable loop state of `get_stem_map`: the map under construction plus
the diagnostic counters `processed_count`, `max_name_len`, `last_file`. -/
structure ScanAcc where
  map : StemMap
  processed : Nat
  maxNameLen : Nat
  lastFile : Option String
deriving DecidableEq, Repr

/-- The body of the `for entry in entries` loop of `get_stem_map`. -/
def scanStep (acc : ScanAcc) (e : DirEntry) : ScanAcc :=
  if accept e then
    { map := addToStemMap acc.map (splitextStem e.name) e.name
      processed := acc.processed + 1
      maxNameLen := max acc.maxNameLen e.name.length
      lastFile := some e.name }
  else acc

/-- Initial loop state of `get_stem_map`. -/
def initAcc : ScanAcc := ⟨[], 0, 0, none⟩

/-- The StemMap built by scanning a list of entries in order. -/
def buildMap (es : List DirEntry) : StemMap := (es.foldl scanStep initAcc).map

/-- One line of console output; one constructor per `print` of the script. -/
inductive Msg where
  | showPath (which : Nat) (path : String)
  | modeMove
  | separator
  | dirNotFound (dir : String)
  | scanErrorHeader (dir : String)
  | scanErrorDetail (processed dirPathLen maxNameLen : Nat)
  | scanErrorLast (lastFile : String) (estimate : Nat)
  | pathHint
  | diffHeader (count : Nat) (targetDesc baseName : String)
  | dirCreated (baseName : String)
  | mkdirError (baseName : String)
  | stemLine (stem : String)
  | moved (filename : String)
  | moveFailed (filename : String)
  | moveSummary (count : Nat) (baseName : String)
  | dirsMatch
deriving DecidableEq, Repr

/-- One directory as the scanner observes it: whether `directory.exists()`,
its `Path.name`, its resolved absolute path (`str(directory.resolve())`), the
entries `os.scandir` yields in order, and — when the listing raises `OSError`
mid-iteration — how many entries were yielded before the exception. -/
structure DirState where
  dirExists : Bool
  name : String
  resolvedPath : String
  entries : List DirEntry
  errorAfter : Option Nat
deriving Repr

/-- `get_stem_map(directory)`: returns the built StemMap together with the
lines it prints (nothing on a clean scan; a not-found report for a missing
directory; a diagnostic block when `os.scandir` iteration raises `OSError`). -/
def get_stem_map (d : DirState) : StemMap × List Msg :=
  if d.dirExists = false then
    ([], [Msg.dirNotFound d.name])
  else
    let yielded := match d.errorAfter with
      | none => d.entries
      | some k => d.entries.take k
    let acc := yielded.foldl scanStep initAcc
    match d.errorAfter with
    | none => (acc.map, [])
    | some _ =>
      let dlen := d.resolvedPath.length
      let lastMsgs := match acc.lastFile with
        | none => []
        | some lf => [Msg.scanErrorLast lf (dlen + lf.length + 1)]
      let hintMsgs := if dlen + acc.maxNameLen > 250 then [Msg.pathHint] else []
      (acc.map,
       Msg.scanErrorHeader d.name ::
         Msg.scanErrorDetail acc.processed dlen acc.maxNameLen ::
         (lastMsgs ++ hintMsgs ++ [Msg.separator]))

/-- Python's `sorted` on strings: ascending and lexicographic by code point,
which is exactly the order of `String`'s `LinearOrder`. -/
def sortStrings (l : List String) : List String := l.insertionSort (· ≤ ·)

/-- The set difference computed in `main`:
`sorted(list(set(a.keys()) - set(b.keys())))`. -/
def diffStems (a b : StemMap) : List String :=
  sortStrings ((keys a).filter (fun s => ¬ s ∈ keys b))

/-- Outcomes the filesystem hands the mover: whether the `notfound`
subdirectory already exists, whether `mkdir` would succeed, and whether
`shutil.move` would succeed for each filename. -/
structure MoveEnv where
  notfoundExists : Bool
  mkdirOk : Bool
  moveOk : String → Bool

/-- The `for stem in diff_stems` loop of `process_differences`. Returns the
printed lines and the attempted moves as `(filename, succeeded)` pairs;
`none` models the uncaught `KeyError` raised by `stem_map[stem]` when a stem
is not a key of the map. -/
def moveLoop (m : StemMap) (mv : Bool) (env : MoveEnv) :
    List String → Option (List Msg × List (String × Bool))
  | [] => some ([], [])
  | s :: rest =>
    if mv then
      match lookupStem m s with
      | none => none
      | some files =>
        match moveLoop m mv env rest with
        | none => none
        | some (ms, acts) =>
          some (Msg.stemLine s ::
                  (files.map (fun f => if env.moveOk f then Msg.moved f else Msg.moveFailed f)) ++ ms,
                files.map (fun f => (f, env.moveOk f)) ++ acts)
    else
      match moveLoop m mv env rest with
      | none => none
      | some (ms, acts) => some (Msg.stemLine s :: ms, acts)

/-- `process_differences(base_dir, diff_stems, stem_map, target_desc, move)`:
returns the printed lines and the attempted moves, or `none` for the uncaught
`KeyError`.  An empty stem list does nothing; a failing `mkdir` of `notfound`
prints the error and returns before listing any stem. -/
def process_differences (baseName : String) (diff : List String) (m : StemMap)
    (targetDesc : String) (mv : Bool) (env : MoveEnv) :
    Option (List Msg × List (String × Bool)) :=
  if diff.isEmpty then some ([], [])
  else
    let header := Msg.diffHeader diff.length targetDesc baseName
    if mv && !env.notfoundExists && !env.mkdirOk then
      some ([header, Msg.mkdirError baseName], [])
    else
      let createMsgs := if mv && !env.notfoundExists then [Msg.dirCreated baseName] else []
      match moveLoop m mv env diff with
      | none => none
      | some (ms, acts) =>
        some (header :: createMsgs ++ ms ++
                (if mv then [Msg.moveSummary diff.length baseName] else []) ++ [Msg.separator],
              acts)

/-- The whole observable world of one `main()` call. -/
structure World where
  source : DirState
  target : DirState
  moveFlag : Bool
  srcEnv : MoveEnv
  tgtEnv : MoveEnv

/-- The observable outcome of one `main()` call: everything printed and the
move attempts performed on each side. -/
structure RunResult where
  msgs : List Msg
  srcMoves : List (String × Bool)
  tgtMoves : List (String × Bool)
deriving DecidableEq, Repr

/-- `source_map` of `main`. -/
def srcStemMap (w : World) : StemMap := (get_stem_map w.source).1

/-- `target_map` of `main`. -/
def tgtStemMap (w : World) : StemMap := (get_stem_map w.target).1

/-- `missing_in_target` of `main`: stems only in the source map, sorted. -/
def missingInTarget (w : World) : List String := diffStems (srcStemMap w) (tgtStemMap w)

/-- `missing_in_source` of `main`: stems only in the target map, sorted. -/
def missingInSource (w : World) : List String := diffStems (tgtStemMap w) (srcStemMap w)

/-- One call of the `main()` function; `none` models an uncaught exception. -/
def main_run (w : World) : Option RunResult :=
  let pre := Msg.showPath 1 w.source.resolvedPath :: Msg.showPath 2 w.target.resolvedPath ::
    ((if w.moveFlag then [Msg.modeMove] else []) ++ [Msg.separator])
  let sMsgs := (get_stem_map w.source).2
  let tMsgs := (get_stem_map w.target).2
  if (missingInTarget w).isEmpty && (missingInSource w).isEmpty then
    some ⟨pre ++ sMsgs ++ tMsgs ++ [Msg.dirsMatch], [], []⟩
  else
    match process_differences w.source.name (missingInTarget w) (srcStemMap w)
        w.target.name w.moveFlag w.srcEnv with
    | none => none
    | some (m1, a1) =>
      match process_differences w.target.name (missingInSource w) (tgtStemMap w)
          w.source.name w.moveFlag w.tgtEnv with
      | none => none
      | some (m2, a2) => some ⟨pre ++ sMsgs ++ tMsgs ++ m1 ++ m2, a1, a2⟩

/-- The directory state after a run: files successfully moved into `notfound`
no longer appear among the base directory's entries. -/
def stateAfter (d : DirState) (moves : List (String × Bool)) : DirState :=
  { d with entries := d.entries.filter (fun e => !(moves.any (fun mv => mv.2 && (mv.1 == e.name)))) }

/-- The move environment after a run: a created `notfound` directory now
exists. -/
def envAfter (env : MoveEnv) (created : Bool) : MoveEnv :=
  { env with notfoundExists := env.notfoundExists || created }

/-- The world as the second `main()` call finds it. -/
def worldAfter (w : World) (r : RunResult) : World :=
  { w with
    source := stateAfter w.source r.srcMoves,
    target := stateAfter w.target r.tgtMoves,
    srcEnv := envAfter w.srcEnv (decide (Msg.dirCreated w.source.name ∈ r.msgs)),
    tgtEnv := envAfter w.tgtEnv (decide (Msg.dirCreated w.target.name ∈ r.msgs)) }

/-- A whole script execution.  The file ends with two identical
`if __name__ == "__main__": main()` blocks, so one process run executes
`main()` twice, the second call seeing the filesystem state the first one
left behind. -/
def script_run (w : World) : Option (List Msg) :=
  match main_run w with
  | none => none
  | some r1 =>
    match main_run (worldAfter w r1) with
    | none => none
    | some r2 => some (r1.msgs ++ r2.msgs)

/-- The names of the accepted (regular, non-hidden) entries, in scan order. -/
def scanNames (es : List DirEntry) : List String := (es.filter accept).map (fun e => e.name)

/-- The accepted filenames whose stem is `s`, in scan order. -/
def contrib (es : List DirEntry) (s : String) : List String :=
  (scanNames es).filter (fun f => splitextStem f = s)

/-- Appends a scan contribution to an optional existing file list; `none`
stands for "not yet a key of the map". -/
def optApp (o : Option (List String)) (l : List String) : Option (List String) :=
  match o with
  | some fs => some (fs ++ l)
  | none => if l.isEmpty then none else some l

/-- Sample directory content: two pdfs, one hidden file, one subdirectory. -/
def entA : List DirEntry := [⟨"a.pdf", true⟩, ⟨"b.pdf", true⟩, ⟨".hid", true⟩, ⟨"sub", false⟩]

/-- Sample directory content: one markdown file. -/
def entB : List DirEntry := [⟨"a.md", true⟩]

/-- Sample source directory. -/
def dirA : DirState := ⟨true, "A", "/A", entA, none⟩

/-- Sample target directory. -/
def dirB : DirState := ⟨true, "B", "/B", entB, none⟩

/-- Sample source directory whose listing fails after two yielded entries. -/
def dirAerr : DirState := ⟨true, "A", "/A", entA, some 2⟩

/-- Sample directory that does not exist. -/
def dirMissing : DirState := ⟨false, "M", "/M", entB, none⟩

/-- Move environment where every filesystem operation succeeds. -/
def envOk : MoveEnv := ⟨false, true, fun _ => true⟩

/-- Move environment where creating `notfound` fails. -/
def envMkdirFail : MoveEnv := ⟨false, false, fun _ => true⟩

/-- Move environment where moving `b.pdf` fails. -/
def envMoveFail : MoveEnv := ⟨false, true, fun f => ¬ f = "b.pdf"⟩

/-- Sample world: a plain report-only run. -/
def wPlain : World := ⟨dirA, dirB, false, envOk, envOk⟩

/-- Sample world: a run with the move flag. -/
def wMove : World := ⟨dirA, dirB, true, envOk, envOk⟩

/-- Sample world: a move run where creating the source-side `notfound`
directory fails. -/
def wMk : World := ⟨dirA, dirB, true, envMkdirFail, envOk⟩

/-- Sample world whose source directory does not exist. -/
def wMiss : World := ⟨dirMissing, dirB, false, envOk, envOk⟩

/-- Sample world whose source directory listing fails mid-scan. -/
def wErr : World := ⟨dirAerr, dirB, false, envOk, envOk⟩

/-- Sample world with matching stems on both sides. -/
def wMatch : World :=
  ⟨⟨true, "A", "/A", [⟨"a.txt", true⟩], none⟩, ⟨true, "B", "/B", [⟨"a.md", true⟩], none⟩,
   false, envOk, envOk⟩

/-- What `process_differences` prints when `move` is false: nothing for an
empty diff, otherwise the count header, one line per stem, and a separator. -/
def pdReport (diff : List String) (targetDesc baseName : String) : List Msg :=
  if diff.isEmpty then []
  else Msg.diffHeader diff.length targetDesc baseName :: (diff.map Msg.stemLine) ++ [Msg.separator]

/-- Everything a `main()` call prints when the move flag is absent; it depends
only on the two directory states. -/
def reportOnly (s t : DirState) : List Msg :=
  Msg.showPath 1 s.resolvedPath :: Msg.showPath 2 t.resolvedPath :: Msg.separator ::
    ((get_stem_map s).2 ++ (get_stem_map t).2 ++
      (if (diffStems (get_stem_map s).1 (get_stem_map t).1).isEmpty &&
          (diffStems (get_stem_map t).1 (get_stem_map s).1).isEmpty then [Msg.dirsMatch]
       else pdReport (diffStems (get_stem_map s).1 (get_stem_map t).1) t.name s.name ++
            pdReport (diffStems (get_stem_map t).1 (get_stem_map s).1) s.name t.name))


theorem lastDotSplit_eq_none {cs : List Char} (h : lastDotSplit cs = none) : '.' ∉ cs := by
  induction cs with
  | nil => simp
  | cons c rest ih =>
    simp only [lastDotSplit] at h
    cases hr : lastDotSplit rest with
    | some p => rw [hr] at h; simp at h
    | none =>
      rw [hr] at h
      by_cases hc : c = '.'
      · simp [hc] at h
      · intro hmem
        rcases List.mem_cons.mp hmem with he | he
        · exact hc he.symm
        · exact ih hr he

theorem lastDotSplit_eq_some {cs b a : List Char} (h : lastDotSplit cs = some (b, a)) :
    cs = b ++ '.' :: a ∧ '.' ∉ a := by
  induction cs generalizing b a with
  | nil => simp [lastDotSplit] at h
  | cons c rest ih =>
    simp only [lastDotSplit] at h
    cases hr : lastDotSplit rest with
    | some p =>
      obtain ⟨b', a'⟩ := p
      simp only [hr, Option.some.injEq, Prod.mk.injEq] at h
      obtain ⟨hb, ha⟩ := h
      obtain ⟨h1, h2⟩ := ih hr
      subst hb
      subst ha
      exact ⟨by simp [h1], h2⟩
    | none =>
      simp only [hr] at h
      by_cases hc : c = '.'
      · subst hc
        rw [if_pos rfl] at h
        injection h with h2
        rw [Prod.mk.injEq] at h2
        obtain ⟨hb, ha⟩ := h2
        subst hb
        subst ha
        exact ⟨rfl, lastDotSplit_eq_none hr⟩
      · simp [hc] at h

theorem splitextStem_of_no_dot {name : String} (h : '.' ∉ name.data) :
    splitextStem name = name := by
  unfold splitextStem
  cases hls : lastDotSplit name.data with
  | none => rfl
  | some p =>
    obtain ⟨b, a⟩ := p
    obtain ⟨h1, _⟩ := lastDotSplit_eq_some hls
    exact absurd (h1 ▸ (List.mem_append.mpr (Or.inr (List.mem_cons_self _ _)))) h

theorem splitextStem_of_dot {name : String} (hd : startswithDot name = false)
    (h : '.' ∈ name.data) :
    ∃ ext : List Char, '.' ∉ ext ∧ name = splitextStem name ++ String.mk ('.' :: ext) := by
  cases hls : lastDotSplit name.data with
  | none => exact absurd h (lastDotSplit_eq_none hls)
  | some p =>
    obtain ⟨b, a⟩ := p
    obtain ⟨h1, h2⟩ := lastDotSplit_eq_some hls
    cases b with
    | nil =>
      exfalso
      simp only [startswithDot] at hd
      rw [h1] at hd
      simp at hd
    | cons c b' =>
      have hc : c ≠ '.' := by
        intro hcc
        simp only [startswithDot] at hd
        rw [h1] at hd
        simp [hcc] at hd
      have hall : ((c :: b').all (· == '.')) = false := by
        simp only [List.all_cons, Bool.and_eq_false_iff]
        exact Or.inl (by simpa using hc)
      have hs : splitextStem name = ⟨c :: b'⟩ := by
        simp [splitextStem, hls, hall]
      refine ⟨a, h2, ?_⟩
      apply String.ext
      rw [String.data_append, hs]
      exact h1

theorem lookupStem_addToStemMap (m : StemMap) (stem f s : String) :
    lookupStem (addToStemMap m stem f) s =
      if s = stem then some ((lookupStem m stem).getD [] ++ [f]) else lookupStem m s := by
  induction m with
  | nil =>
    by_cases h : s = stem
    · subst h
      simp [addToStemMap, lookupStem]
    · simp only [addToStemMap, lookupStem, if_neg h, if_neg (fun hh : stem = s => h hh.symm)]
  | cons p rest ih =>
    by_cases hp : p.1 = stem
    · by_cases h : s = stem
      · subst h
        simp [addToStemMap, lookupStem, hp]
      · have h2 : ¬ stem = s := fun hh => h hh.symm
        have h3 : ¬ p.1 = s := by rw [hp]; exact h2
        simp [addToStemMap, hp, lookupStem, h, h2, h3]
    · by_cases h : p.1 = s
      · have hns : ¬ s = stem := fun hh => hp (hh ▸ h)
        simp [addToStemMap, hp, lookupStem, h, hns]
      · simp [addToStemMap, hp, lookupStem, h, ih]

theorem lookupStem_scanFold (es : List DirEntry) (acc : ScanAcc) (s : String) :
    lookupStem (es.foldl scanStep acc).map s = optApp (lookupStem acc.map s) (contrib es s) := by
  induction es generalizing acc with
  | nil =>
    simp only [List.foldl_nil, contrib, scanNames, List.filter_nil, List.map_nil, optApp]
    cases lookupStem acc.map s with
    | none => rfl
    | some fs => simp
  | cons e rest ih =>
    simp only [List.foldl_cons]
    rw [ih]
    by_cases ha : accept e
    · have hstep : (scanStep acc e).map = addToStemMap acc.map (splitextStem e.name) e.name := by
        simp [scanStep, ha]
      rw [hstep, lookupStem_addToStemMap]
      by_cases hs : s = splitextStem e.name
      · rw [if_pos hs]
        have hcontrib : contrib (e :: rest) s = e.name :: contrib rest s := by
          simp [contrib, scanNames, ha, hs]
        rw [hcontrib, hs]
        cases hl : lookupStem acc.map (splitextStem e.name) with
        | none => simp [optApp]
        | some fs => simp [optApp]
      · rw [if_neg hs]
        have hdec : (decide (splitextStem e.name = s)) = false :=
          decide_eq_false (fun hh => hs hh.symm)
        have hcontrib : contrib (e :: rest) s = contrib rest s := by
          simp [contrib, scanNames, ha, List.filter_cons, hdec]
        rw [hcontrib]
    · have hstep : (scanStep acc e) = acc := by simp [scanStep, ha]
      have hcontrib : contrib (e :: rest) s = contrib rest s := by
        simp [contrib, scanNames, List.filter_cons, ha]
      rw [hstep, hcontrib]

theorem lookupStem_buildMap (es : List DirEntry) (s : String) :
    lookupStem (buildMap es) s =
      if contrib es s = [] then none else some (contrib es s) := by
  rw [buildMap, lookupStem_scanFold]
  have hinit : lookupStem initAcc.map s = none := rfl
  rw [hinit]
  simp only [optApp]
  by_cases h : contrib es s = []
  · simp [h]
  · simp [h, List.isEmpty_iff]

theorem mem_addToStemMap (P : String → String → Prop) (m : StemMap) (stem f0 : String)
    (hm : ∀ p ∈ m, ∀ f ∈ p.2, P p.1 f) (h0 : P stem f0) :
    ∀ p ∈ addToStemMap m stem f0, ∀ f ∈ p.2, P p.1 f := by
  induction m with
  | nil =>
    intro p hp f hf
    simp only [addToStemMap, List.mem_singleton] at hp
    subst hp
    simp only [List.mem_singleton] at hf
    subst hf
    exact h0
  | cons q rest ih =>
    by_cases hq : q.1 = stem
    · intro p hp f hf
      simp only [addToStemMap, if_pos hq] at hp
      rcases List.mem_cons.mp hp with he | he
      · subst he
        rcases List.mem_append.mp hf with hf1 | hf1
        · exact hm q (List.mem_cons_self _ _) f hf1
        · simp only [List.mem_singleton] at hf1
          subst hf1
          exact hq ▸ h0
      · exact hm p (List.mem_cons_of_mem _ he) f hf
    · intro p hp f hf
      simp only [addToStemMap, if_neg hq] at hp
      rcases List.mem_cons.mp hp with he | he
      · subst he
        exact hm p (List.mem_cons_self _ _) f hf
      · exact ih (fun p' hp' => hm p' (List.mem_cons_of_mem _ hp')) p he f hf

theorem mem_scanFold (P : String → String → Prop) (es : List DirEntry) (acc : ScanAcc)
    (hacc : ∀ p ∈ acc.map, ∀ f ∈ p.2, P p.1 f)
    (hes : ∀ e ∈ es, accept e = true → P (splitextStem e.name) e.name) :
    ∀ p ∈ (es.foldl scanStep acc).map, ∀ f ∈ p.2, P p.1 f := by
  induction es generalizing acc with
  | nil => exact hacc
  | cons e rest ih =>
    simp only [List.foldl_cons]
    by_cases ha : accept e
    · have hstep : (scanStep acc e).map = addToStemMap acc.map (splitextStem e.name) e.name := by
        simp [scanStep, ha]
      refine ih _ ?_ (fun e' he' hae' => hes e' (List.mem_cons_of_mem _ he') hae')
      rw [hstep]
      exact mem_addToStemMap P acc.map _ _ hacc (hes e (List.mem_cons_self _ _) ha)
    · have hstep : scanStep acc e = acc := by simp [scanStep, ha]
      rw [hstep]
      exact ih acc hacc (fun e' he' hae' => hes e' (List.mem_cons_of_mem _ he') hae')

theorem mem_buildMap {es : List DirEntry} {p : String × List String} (hp : p ∈ buildMap es)
    {f : String} (hf : f ∈ p.2) :
    splitextStem f = p.1 ∧ ∃ e ∈ es, e.name = f ∧ accept e = true := by
  refine mem_scanFold
    (fun s f0 => splitextStem f0 = s ∧ ∃ e ∈ es, e.name = f0 ∧ accept e = true)
    es initAcc (by intro p' hp'; simp [initAcc] at hp') ?_ p hp f hf
  intro e he hae
  exact ⟨rfl, e, he, rfl, hae⟩

theorem processed_scanFold (es : List DirEntry) (acc : ScanAcc) :
    (es.foldl scanStep acc).processed = acc.processed + (es.filter accept).length := by
  induction es generalizing acc with
  | nil => simp
  | cons e rest ih =>
    simp only [List.foldl_cons, List.filter_cons]
    by_cases ha : accept e
    · have hstep : scanStep acc e =
          ⟨addToStemMap acc.map (splitextStem e.name) e.name, acc.processed + 1,
            max acc.maxNameLen e.name.length, some e.name⟩ := by
        simp [scanStep, ha]
      rw [hstep, ih]
      simp [ha]
      omega
    · have hstep : scanStep acc e = acc := by simp [scanStep, ha]
      rw [hstep, ih]
      simp [ha]

theorem maxNameLen_scanFold (es : List DirEntry) (acc : ScanAcc) :
    (es.foldl scanStep acc).maxNameLen =
      ((es.filter accept).map (fun e => e.name.length)).foldl max acc.maxNameLen := by
  induction es generalizing acc with
  | nil => simp
  | cons e rest ih =>
    simp only [List.foldl_cons, List.filter_cons]
    by_cases ha : accept e
    · have hstep : scanStep acc e =
          ⟨addToStemMap acc.map (splitextStem e.name) e.name, acc.processed + 1,
            max acc.maxNameLen e.name.length, some e.name⟩ := by
        simp [scanStep, ha]
      rw [hstep, ih]
      simp [ha]
    · have hstep : scanStep acc e = acc := by simp [scanStep, ha]
      rw [hstep, ih]
      simp [ha]

theorem lastFile_scanFold (es : List DirEntry) (acc : ScanAcc) :
    (es.foldl scanStep acc).lastFile =
      match (es.filter accept).getLast? with
      | some e => some e.name
      | none => acc.lastFile := by
  induction es generalizing acc with
  | nil => simp
  | cons e rest ih =>
    simp only [List.foldl_cons, List.filter_cons]
    by_cases ha : accept e
    · have hstep : scanStep acc e =
          ⟨addToStemMap acc.map (splitextStem e.name) e.name, acc.processed + 1,
            max acc.maxNameLen e.name.length, some e.name⟩ := by
        simp [scanStep, ha]
      rw [hstep, ih]
      cases hl : (rest.filter accept).getLast? with
      | none => simp [ha, hl, List.getLast?_cons]
      | some x => simp [ha, hl, List.getLast?_cons]
    · have hstep : scanStep acc e = acc := by simp [scanStep, ha]
      rw [hstep, ih]
      simp [ha]

theorem lookupStem_isSome_of_mem_keys {m : StemMap} {s : String} (h : s ∈ keys m) :
    (lookupStem m s).isSome = true := by
  induction m with
  | nil => simp [keys] at h
  | cons p rest ih =>
    by_cases hp : p.1 = s
    · simp [lookupStem, hp]
    · have : s ∈ keys rest := by
        simp only [keys, List.map_cons, List.mem_cons] at h
        rcases h with h | h
        · exact absurd h.symm hp
        · exact h
      simp [lookupStem, hp, ih this]

theorem mem_of_lookupStem_eq_some {m : StemMap} {s : String} {fs : List String}
    (h : lookupStem m s = some fs) : (s, fs) ∈ m := by
  induction m with
  | nil => simp [lookupStem] at h
  | cons p rest ih =>
    by_cases hp : p.1 = s
    · simp only [lookupStem, if_pos hp, Option.some.injEq] at h
      subst h
      rw [← hp]
      exact List.mem_cons_self _ _
    · simp only [lookupStem, if_neg hp] at h
      exact List.mem_cons_of_mem _ (ih h)

theorem mem_diffStems (a b : StemMap) (s : String) :
    s ∈ diffStems a b ↔ s ∈ keys a ∧ s ∉ keys b := by
  simp [diffStems, sortStrings, List.mem_insertionSort, List.mem_filter]

theorem sorted_diffStems (a b : StemMap) : List.Sorted (· ≤ ·) (diffStems a b) :=
  List.sorted_insertionSort (· ≤ ·) _

theorem moveLoop_false (m : StemMap) (env : MoveEnv) (diff : List String) :
    moveLoop m false env diff = some (diff.map Msg.stemLine, []) := by
  induction diff with
  | nil => rfl
  | cons s rest ih => simp [moveLoop, ih]

theorem moveLoop_isSome {m : StemMap} (mv : Bool) (env : MoveEnv) {diff : List String}
    (h : ∀ s ∈ diff, s ∈ keys m) : (moveLoop m mv env diff).isSome = true := by
  induction diff with
  | nil => cases mv <;> rfl
  | cons s rest ih =>
    have hrest := ih (fun s' hs' => h s' (List.mem_cons_of_mem _ hs'))
    cases mv with
    | false => rw [moveLoop_false]; rfl
    | true =>
      have hk := lookupStem_isSome_of_mem_keys (h s (List.mem_cons_self _ _))
      obtain ⟨fs, hfs⟩ := Option.isSome_iff_exists.mp hk
      obtain ⟨pr, hpr⟩ := Option.isSome_iff_exists.mp hrest
      obtain ⟨ms, acts⟩ := pr
      simp [moveLoop, hfs, hpr]

theorem process_differences_false (baseName desc : String) (diff : List String)
    (m : StemMap) (env : MoveEnv) :
    process_differences baseName diff m desc false env = some (pdReport diff desc baseName, []) := by
  unfold process_differences pdReport
  by_cases hd : diff.isEmpty
  · simp [hd]
  · simp [hd, moveLoop_false]

theorem process_differences_isSome (baseName desc : String) (diff : List String)
    (m : StemMap) (mv : Bool) (env : MoveEnv) (h : ∀ s ∈ diff, s ∈ keys m) :
    (process_differences baseName diff m desc mv env).isSome = true := by
  unfold process_differences
  by_cases hd : diff.isEmpty
  · simp [hd]
  · by_cases hmk : (mv && !env.notfoundExists && !env.mkdirOk) = true
    · simp [hd, hmk]
    · obtain ⟨pr, hpr⟩ := Option.isSome_iff_exists.mp (moveLoop_isSome mv env h)
      obtain ⟨ms, acts⟩ := pr
      simp [hd, hmk, hpr]

theorem diffStems_subset_keys (a b : StemMap) : ∀ s ∈ diffStems a b, s ∈ keys a :=
  fun s hs => ((mem_diffStems a b s).mp hs).1

theorem main_run_isSome (w : World) : (main_run w).isSome = true := by
  unfold main_run
  by_cases hif : ((missingInTarget w).isEmpty && (missingInSource w).isEmpty) = true
  · simp [hif]
  · have h1 := process_differences_isSome w.source.name w.target.name (missingInTarget w)
      (srcStemMap w) w.moveFlag w.srcEnv (diffStems_subset_keys (srcStemMap w) (tgtStemMap w))
    have h2 := process_differences_isSome w.target.name w.source.name (missingInSource w)
      (tgtStemMap w) w.moveFlag w.tgtEnv (diffStems_subset_keys (tgtStemMap w) (srcStemMap w))
    obtain ⟨p1, hp1⟩ := Option.isSome_iff_exists.mp h1
    obtain ⟨p2, hp2⟩ := Option.isSome_iff_exists.mp h2
    obtain ⟨m1, a1⟩ := p1
    obtain ⟨m2, a2⟩ := p2
    simp [hif, hp1, hp2]

theorem mem_get_stem_map_msgs {d : DirState} {x : Msg} (hx : x ∈ (get_stem_map d).2) :
    (∃ n, x = Msg.dirNotFound n) ∨ (∃ n, x = Msg.scanErrorHeader n) ∨
    (∃ p q r, x = Msg.scanErrorDetail p q r) ∨ (∃ l e, x = Msg.scanErrorLast l e) ∨
    x = Msg.pathHint ∨ x = Msg.separator := by
  simp only [get_stem_map] at hx
  split at hx
  · simp only [List.mem_singleton] at hx
    exact Or.inl ⟨d.name, hx⟩
  · split at hx
    · simp at hx
    · rcases List.mem_cons.mp hx with h | hx2
      · exact Or.inr (Or.inl ⟨d.name, h⟩)
      rcases List.mem_cons.mp hx2 with h | hx3
      · exact Or.inr (Or.inr (Or.inl ⟨_, _, _, h⟩))
      rcases List.mem_append.mp hx3 with h4 | h8
      · rcases List.mem_append.mp h4 with h6 | h7
        · split at h6
          · simp at h6
          · simp only [List.mem_singleton] at h6
            exact Or.inr (Or.inr (Or.inr (Or.inl ⟨_, _, h6⟩)))
        · split at h7
          · simp only [List.mem_singleton] at h7
            exact Or.inr (Or.inr (Or.inr (Or.inr (Or.inl h7))))
          · simp at h7
      · simp only [List.mem_singleton] at h8
        exact Or.inr (Or.inr (Or.inr (Or.inr (Or.inr h8))))

theorem main_run_no_move (w : World) (h : w.moveFlag = false) :
    main_run w = some ⟨reportOnly w.source w.target, [], []⟩ := by
  unfold main_run reportOnly
  rw [h]
  by_cases hif : ((missingInTarget w).isEmpty && (missingInSource w).isEmpty) = true
  · have hif' : ((diffStems (get_stem_map w.source).1 (get_stem_map w.target).1).isEmpty &&
        (diffStems (get_stem_map w.target).1 (get_stem_map w.source).1).isEmpty) = true := hif
    simp [hif, hif']
  · have hif' : ¬ ((diffStems (get_stem_map w.source).1 (get_stem_map w.target).1).isEmpty &&
        (diffStems (get_stem_map w.target).1 (get_stem_map w.source).1).isEmpty) = true := hif
    rw [process_differences_false, process_differences_false]
    simp [hif, hif', missingInTarget, missingInSource, srcStemMap, tgtStemMap]

theorem dirCreated_not_mem_pdReport (diff : List String) (desc base b : String) :
    Msg.dirCreated b ∉ pdReport diff desc base := by
  unfold pdReport
  split
  · simp
  · intro h
    rcases List.mem_append.mp h with h | h
    · rcases List.mem_cons.mp h with h | h
      · simp at h
      · obtain ⟨s, _, hs⟩ := List.mem_map.mp h
        simp at hs
    · simp at h

theorem dirCreated_not_mem_reportOnly (s t : DirState) (b : String) :
    Msg.dirCreated b ∉ reportOnly s t := by
  intro h
  unfold reportOnly at h
  rcases List.mem_cons.mp h with h | h
  · simp at h
  rcases List.mem_cons.mp h with h | h
  · simp at h
  rcases List.mem_cons.mp h with h | h
  · simp at h
  rcases List.mem_append.mp h with h | h
  · rcases List.mem_append.mp h with h | h <;>
    · rcases mem_get_stem_map_msgs h with ⟨n, hn⟩ | ⟨n, hn⟩ | ⟨p, q, r, hn⟩ | ⟨l, e, hn⟩ | hn | hn <;>
        simp at hn
  · split at h
    · simp at h
    · rcases List.mem_append.mp h with h | h
      · exact dirCreated_not_mem_pdReport _ _ _ _ h
      · exact dirCreated_not_mem_pdReport _ _ _ _ h

theorem stemLine_mem_moveLoop {m : StemMap} {mv : Bool} {env : MoveEnv} {diff : List String}
    {ms : List Msg} {acts : List (String × Bool)}
    (h : moveLoop m mv env diff = some (ms, acts)) :
    ∀ s ∈ diff, Msg.stemLine s ∈ ms := by
  induction diff generalizing ms acts with
  | nil => intro s hs; simp at hs
  | cons s0 rest ih =>
    cases mv with
    | false =>
      rw [moveLoop_false] at h
      injection h with h
      injection h with h1 h2
      subst h1
      intro s hs
      exact List.mem_map.mpr ⟨s, hs, rfl⟩
    | true =>
      rw [moveLoop, if_pos rfl] at h
      cases hf : lookupStem m s0 with
      | none => simp [hf] at h
      | some files =>
        cases hr : moveLoop m true env rest with
        | none => simp [hf, hr] at h
        | some pr =>
          obtain ⟨ms', acts'⟩ := pr
          simp only [hf, hr, Option.some.injEq, Prod.mk.injEq] at h
          obtain ⟨hms, hacts⟩ := h
          subst hms
          intro s hs
          rcases List.mem_cons.mp hs with rfl | hs'
          · exact List.mem_cons_self _ _
          · exact List.mem_cons_of_mem _ (List.mem_append.mpr (Or.inr (ih hr s hs')))

theorem moveLoop_spec {m : StemMap} {env : MoveEnv} {diff : List String}
    {ms : List Msg} {acts : List (String × Bool)}
    (h : moveLoop m true env diff = some (ms, acts)) :
    ∀ s ∈ diff, ∃ files, lookupStem m s = some files ∧
      ∀ f ∈ files, (f, env.moveOk f) ∈ acts ∧
        (env.moveOk f = true → Msg.moved f ∈ ms) ∧
        (env.moveOk f = false → Msg.moveFailed f ∈ ms) := by
  induction diff generalizing ms acts with
  | nil => intro s hs; simp at hs
  | cons s0 rest ih =>
    rw [moveLoop, if_pos rfl] at h
    cases hf : lookupStem m s0 with
    | none => simp [hf] at h
    | some files =>
      cases hr : moveLoop m true env rest with
      | none => simp [hf, hr] at h
      | some pr =>
        obtain ⟨ms', acts'⟩ := pr
        simp only [hf, hr, Option.some.injEq, Prod.mk.injEq] at h
        obtain ⟨hms, hacts⟩ := h
        subst hms
        subst hacts
        intro s hs
        rcases List.mem_cons.mp hs with rfl | hs'
        · refine ⟨files, hf, fun f hfl => ⟨?_, ?_, ?_⟩⟩
          · exact List.mem_append.mpr (Or.inl (List.mem_map.mpr ⟨f, hfl, rfl⟩))
          · intro hmv
            refine List.mem_cons_of_mem _ (List.mem_append.mpr (Or.inl ?_))
            exact List.mem_map.mpr ⟨f, hfl, by simp [hmv]⟩
          · intro hmv
            refine List.mem_cons_of_mem _ (List.mem_append.mpr (Or.inl ?_))
            exact List.mem_map.mpr ⟨f, hfl, by simp [hmv]⟩
        · obtain ⟨files', hlook, hprops⟩ := ih hr s hs'
          refine ⟨files', hlook, fun f hfl => ?_⟩
          obtain ⟨ha1, ha2, ha3⟩ := hprops f hfl
          exact ⟨List.mem_append.mpr (Or.inr ha1),
            fun hmv => List.mem_cons_of_mem _ (List.mem_append.mpr (Or.inr (ha2 hmv))),
            fun hmv => List.mem_cons_of_mem _ (List.mem_append.mpr (Or.inr (ha3 hmv)))⟩

theorem process_differences_mkdirFail (baseName desc : String) (diff : List String)
    (m : StemMap) (env : MoveEnv) (hd : diff.isEmpty = false)
    (hne : env.notfoundExists = false) (hmk : env.mkdirOk = false) :
    process_differences baseName diff m desc true env =
      some ([Msg.diffHeader diff.length desc baseName, Msg.mkdirError baseName], []) := by
  unfold process_differences
  simp [hd, hne, hmk]

theorem main_run_split (w : World)
    (hne : ((missingInTarget w).isEmpty && (missingInSource w).isEmpty) = false)
    {m1 m2 : List Msg} {a1 a2 : List (String × Bool)}
    (h1 : process_differences w.source.name (missingInTarget w) (srcStemMap w)
      w.target.name w.moveFlag w.srcEnv = some (m1, a1))
    (h2 : process_differences w.target.name (missingInSource w) (tgtStemMap w)
      w.source.name w.moveFlag w.tgtEnv = some (m2, a2)) :
    main_run w = some
      ⟨(Msg.showPath 1 w.source.resolvedPath :: Msg.showPath 2 w.target.resolvedPath ::
          ((if w.moveFlag then [Msg.modeMove] else []) ++ [Msg.separator])) ++
        (get_stem_map w.source).2 ++ (get_stem_map w.target).2 ++ m1 ++ m2, a1, a2⟩ := by
  unfold main_run
  rw [hne, h1, h2]
  simp

theorem acts_mem_moveLoop {m : StemMap} {mv : Bool} {env : MoveEnv} {diff : List String}
    {ms : List Msg} {acts : List (String × Bool)}
    (h : moveLoop m mv env diff = some (ms, acts)) :
    ∀ p ∈ acts, ∃ s files, lookupStem m s = some files ∧ p.1 ∈ files := by
  induction diff generalizing ms acts with
  | nil =>
    cases mv <;>
      (simp only [moveLoop, Option.some.injEq, Prod.mk.injEq] at h
       obtain ⟨h1, h2⟩ := h
       subst h2
       intro p hp
       simp at hp)
  | cons s0 rest ih =>
    cases mv with
    | false =>
      rw [moveLoop_false] at h
      injection h with h
      injection h with h1 h2
      subst h2
      intro p hp
      simp at hp
    | true =>
      rw [moveLoop, if_pos rfl] at h
      cases hf : lookupStem m s0 with
      | none => simp [hf] at h
      | some files =>
        cases hr : moveLoop m true env rest with
        | none => simp [hf, hr] at h
        | some pr =>
          obtain ⟨ms', acts'⟩ := pr
          simp only [hf, hr, Option.some.injEq, Prod.mk.injEq] at h
          obtain ⟨hms, hacts⟩ := h
          subst hacts
          intro p hp
          rcases List.mem_append.mp hp with hp | hp
          · obtain ⟨f, hfl, hpf⟩ := List.mem_map.mp hp
            exact ⟨s0, files, hf, by rw [← hpf]; exact hfl⟩
          · exact ih hr p hp

theorem acts_mem_process_differences {baseName desc : String} {diff : List String}
    {m : StemMap} {mv : Bool} {env : MoveEnv} {ms : List Msg} {acts : List (String × Bool)}
    (h : process_differences baseName diff m desc mv env = some (ms, acts)) :
    ∀ p ∈ acts, ∃ s files, lookupStem m s = some files ∧ p.1 ∈ files := by
  unfold process_differences at h
  by_cases hd : diff.isEmpty = true
  · rw [if_pos hd] at h
    injection h with h
    injection h with h1 h2
    subst h2
    intro p hp
    simp at hp
  · rw [if_neg hd] at h
    by_cases hmk : (mv && !env.notfoundExists && !env.mkdirOk) = true
    · simp only [if_pos hmk, Option.some.injEq, Prod.mk.injEq] at h
      obtain ⟨h1, h2⟩ := h
      subst h2
      intro p hp
      simp at hp
    · simp only [if_neg hmk] at h
      cases hml : moveLoop m mv env diff with
      | none => simp [hml] at h
      | some pr =>
        obtain ⟨ms0, acts0⟩ := pr
        simp only [hml, Option.some.injEq, Prod.mk.injEq] at h
        obtain ⟨h1, h2⟩ := h
        subst h2
        exact acts_mem_moveLoop hml

/-- C1: given two StemMaps A (source) and B (target), `main`'s differencer
computes A-only as exactly the stems among A's keys that are not keys of B
and B-only as exactly the stems among B's keys that are not keys of A, each
ascending in `String`'s lexicographic-by-code-point order (Python's
`sorted`); a stem present in both maps appears in neither exclusive list. -/
theorem differencer_exclusive_sorted (A B : StemMap) :
    (∀ s, s ∈ diffStems A B ↔ (s ∈ keys A ∧ s ∉ keys B)) ∧
    (∀ s, s ∈ diffStems B A ↔ (s ∈ keys B ∧ s ∉ keys A)) ∧
    List.Sorted (· ≤ ·) (diffStems A B) ∧ List.Sorted (· ≤ ·) (diffStems B A) ∧
    (∀ s, s ∈ keys A → s ∈ keys B → s ∉ diffStems A B ∧ s ∉ diffStems B A) := by
  refine ⟨mem_diffStems A B, mem_diffStems B A, sorted_diffStems A B, sorted_diffStems B A, ?_⟩
  intro s hA hB
  exact ⟨fun hs => ((mem_diffStems A B s).mp hs).2 hB,
         fun hs => ((mem_diffStems B A s).mp hs).2 hA⟩

/-- C2: scanning an existing directory with no I/O error yields a StemMap
holding exactly the regular, non-hidden files keyed by stem: every stored
filename comes from a regular non-hidden entry and strips to its key, every
regular non-hidden entry is stored under its `os.path.splitext` stem, a move
over such a map only ever touches those stored (hence non-hidden) filenames,
and for a non-hidden name the stem is the name minus its final dot-delimited
extension while a name without a dot maps to itself. -/
theorem scanner_stem_map_correct (d : DirState) (hex : d.dirExists = true)
    (herr : d.errorAfter = none) :
    (∀ stem files, (stem, files) ∈ (get_stem_map d).1 → ∀ f ∈ files,
       splitextStem f = stem ∧
       ∃ e ∈ d.entries, e.name = f ∧ e.isFile = true ∧ startswithDot f = false) ∧
    (∀ e ∈ d.entries, e.isFile = true → startswithDot e.name = false →
       ∃ files, lookupStem (get_stem_map d).1 (splitextStem e.name) = some files ∧
         e.name ∈ files) ∧
    (∀ baseName desc diff mv env ms acts,
       process_differences baseName diff (get_stem_map d).1 desc mv env = some (ms, acts) →
       ∀ p ∈ acts, startswithDot p.1 = false) ∧
    (∀ f : String, startswithDot f = false →
       (('.' ∉ f.data → splitextStem f = f) ∧
        ('.' ∈ f.data → ∃ ext : List Char, '.' ∉ ext ∧
           f = splitextStem f ++ String.mk ('.' :: ext)))) := by
  have hmap : (get_stem_map d).1 = buildMap d.entries := by
    simp [get_stem_map, hex, herr, buildMap]
  have part1 : ∀ stem files, (stem, files) ∈ (get_stem_map d).1 → ∀ f ∈ files,
      splitextStem f = stem ∧
      ∃ e ∈ d.entries, e.name = f ∧ e.isFile = true ∧ startswithDot f = false := by
    intro stem files hpf f hf
    rw [hmap] at hpf
    obtain ⟨hstem, e, he, hname, hacc⟩ := mem_buildMap hpf hf
    rw [accept, Bool.and_eq_true, Bool.not_eq_true'] at hacc
    exact ⟨hstem, e, he, hname, hacc.1, hname ▸ hacc.2⟩
  refine ⟨part1, ?_, ?_, ?_⟩
  · intro e he hif hdot
    have hacc : accept e = true := by simp [accept, hif, hdot]
    have hmem : e.name ∈ contrib d.entries (splitextStem e.name) := by
      unfold contrib scanNames
      exact List.mem_filter.mpr
        ⟨List.mem_map.mpr ⟨e, List.mem_filter.mpr ⟨he, hacc⟩, rfl⟩, by simp⟩
    have hne : contrib d.entries (splitextStem e.name) ≠ [] := by
      intro hnil
      rw [hnil] at hmem
      simp at hmem
    rw [hmap, lookupStem_buildMap, if_neg hne]
    exact ⟨_, rfl, hmem⟩
  · intro baseName desc diff mv env ms acts h p hp
    obtain ⟨s, files, hlook, hpf⟩ := acts_mem_process_differences h p hp
    have hpm := mem_of_lookupStem_eq_some hlook
    exact (part1 s files hpm p.1 hpf).2.elim (fun e hh => hh.2.2.2)
  · intro f hdot
    refine ⟨fun hnd => splitextStem_of_no_dot hnd, fun hd => splitextStem_of_dot hdot hd⟩

/-- Witness for C2 at the sample source directory. -/
theorem scanner_stem_map_correct_witness :
    dirA.dirExists = true ∧ dirA.errorAfter = none ∧
    (∀ stem files, (stem, files) ∈ (get_stem_map dirA).1 → ∀ f ∈ files,
       splitextStem f = stem ∧
       ∃ e ∈ dirA.entries, e.name = f ∧ e.isFile = true ∧ startswithDot f = false) ∧
    (∀ e ∈ dirA.entries, e.isFile = true → startswithDot e.name = false →
       ∃ files, lookupStem (get_stem_map dirA).1 (splitextStem e.name) = some files ∧
         e.name ∈ files) :=
  ⟨rfl, rfl, (scanner_stem_map_correct dirA rfl rfl).1,
    (scanner_stem_map_correct dirA rfl rfl).2.1⟩

/-- C9: a non-existent directory is reported and yields an empty StemMap, and
the run continues with that side treated as empty, so every stem of the other
side becomes exclusive (stated for the source side; the sides are symmetric
in `get_stem_map`). -/
theorem missing_dir_empty_map (w : World) (h : w.source.dirExists = false) :
    get_stem_map w.source = ([], [Msg.dirNotFound w.source.name]) ∧
    missingInTarget w = [] ∧
    missingInSource w = sortStrings (keys (tgtStemMap w)) ∧
    (main_run w).isSome = true := by
  have h1 : get_stem_map w.source = ([], [Msg.dirNotFound w.source.name]) := by
    simp [get_stem_map, h]
  refine ⟨h1, ?_, ?_, main_run_isSome w⟩
  · unfold missingInTarget srcStemMap
    rw [h1]
    simp [diffStems, keys, sortStrings]
  · unfold missingInSource srcStemMap
    rw [h1]
    simp [diffStems, keys]

/-- Witness for C9 at a world whose source directory is missing. -/
theorem missing_dir_empty_map_witness :
    wMiss.source.dirExists = false ∧
    get_stem_map wMiss.source = ([], [Msg.dirNotFound wMiss.source.name]) ∧
    missingInTarget wMiss = [] ∧
    missingInSource wMiss = sortStrings (keys (tgtStemMap wMiss)) ∧
    (main_run wMiss).isSome = true :=
  ⟨rfl, (missing_dir_empty_map wMiss rfl).1, (missing_dir_empty_map wMiss rfl).2.1,
   (missing_dir_empty_map wMiss rfl).2.2.1, (missing_dir_empty_map wMiss rfl).2.2.2⟩

/-- C10: the mover looks stems up with Python's unguarded `stem_map[stem]`,
so it has the precondition that every diff stem is a key of the supplied map;
under that precondition `process_differences` cannot raise, and `main`
establishes the precondition on both sides because each exclusive list is
drawn from the key set of the map passed along with it, so a full run never
raises the `KeyError`. -/
theorem lookup_precondition_established (baseName desc : String) (diff : List String)
    (m : StemMap) (mv : Bool) (env : MoveEnv) (w : World)
    (h : ∀ s ∈ diff, s ∈ keys m) :
    (process_differences baseName diff m desc mv env).isSome = true ∧
    (∀ s ∈ missingInTarget w, s ∈ keys (srcStemMap w)) ∧
    (∀ s ∈ missingInSource w, s ∈ keys (tgtStemMap w)) ∧
    (main_run w).isSome = true :=
  ⟨process_differences_isSome baseName desc diff m mv env h,
   diffStems_subset_keys _ _, diffStems_subset_keys _ _, main_run_isSome w⟩

/-- Witness for C10 at a concrete map, diff list, and world. -/
theorem lookup_precondition_established_witness :
    (∀ s ∈ ["a"], s ∈ keys [("a", ["a.pdf"])]) ∧
    (process_differences "A" ["a"] [("a", ["a.pdf"])] "B" true envOk).isSome = true ∧
    (main_run wPlain).isSome = true := by
  have h : ∀ s ∈ ["a"], s ∈ keys [("a", ["a.pdf"])] := by decide
  exact ⟨h, (lookup_precondition_established "A" "B" ["a"] [("a", ["a.pdf"])] true envOk wPlain h).1,
    (lookup_precondition_established "A" "B" ["a"] [("a", ["a.pdf"])] true envOk wPlain h).2.2.2⟩

/-- C8: when listing an existing directory raises `OSError` after `k` yielded
entries, `get_stem_map` returns the partial StemMap built from those entries
and prints diagnostics carrying the number of files processed so far, the
resolved directory path length, the longest filename length seen, and — when
at least one file was processed — the last processed filename with its
estimated total path length; the failure leaves the whole run alive. -/
theorem scanner_error_partial_diagnostics (d : DirState) (w : World) (k : Nat)
    (hex : d.dirExists = true) (herr : d.errorAfter = some k) :
    (get_stem_map d).1 = buildMap (d.entries.take k) ∧
    Msg.scanErrorHeader d.name ∈ (get_stem_map d).2 ∧
    Msg.scanErrorDetail (((d.entries.take k).filter accept).length) d.resolvedPath.length
      ((((d.entries.take k).filter accept).map (fun e => e.name.length)).foldl max 0)
      ∈ (get_stem_map d).2 ∧
    (∀ lf, ((d.entries.take k).filter accept).getLast? = some lf →
      Msg.scanErrorLast lf.name (d.resolvedPath.length + lf.name.length + 1)
        ∈ (get_stem_map d).2) ∧
    (main_run w).isSome = true := by
  have hp := processed_scanFold (d.entries.take k) initAcc
  have hm := maxNameLen_scanFold (d.entries.take k) initAcc
  have hl := lastFile_scanFold (d.entries.take k) initAcc
  simp only [initAcc] at hp hm hl
  refine ⟨?_, ?_, ?_, ?_, main_run_isSome w⟩
  · simp [get_stem_map, hex, herr, buildMap]
  · simp [get_stem_map, hex, herr]
  · simp [get_stem_map, hex, herr, hp, hm, initAcc]
  · intro lf hlf
    simp [get_stem_map, hex, herr, initAcc, hl, hlf]

/-- Witness for C8 at a directory whose scan fails after two entries. -/
theorem scanner_error_partial_diagnostics_witness :
    dirAerr.dirExists = true ∧ dirAerr.errorAfter = some 2 ∧
    (get_stem_map dirAerr).1 = buildMap (dirAerr.entries.take 2) ∧
    Msg.scanErrorHeader dirAerr.name ∈ (get_stem_map dirAerr).2 ∧
    (main_run wErr).isSome = true :=
  ⟨rfl, rfl, (scanner_error_partial_diagnostics dirAerr wErr 2 rfl rfl).1,
   (scanner_error_partial_diagnostics dirAerr wErr 2 rfl rfl).2.1,
   (scanner_error_partial_diagnostics dirAerr wErr 2 rfl rfl).2.2.2.2⟩

/-- C5: without the move flag a run performs no filesystem mutation — no move
attempt and no `notfound` creation — and its output is a function of the two
directory states alone, so two runs over unchanged filesystem state (even
under different hypothetical move outcomes) report identical stem lists. -/
theorem no_move_no_mutation (w w' : World) (h : w.moveFlag = false)
    (h' : w'.moveFlag = false) (hs : w'.source = w.source) (ht : w'.target = w.target) :
    ∃ r r', main_run w = some r ∧ main_run w' = some r' ∧ r.msgs = r'.msgs ∧
      r.srcMoves = [] ∧ r.tgtMoves = [] ∧ (∀ b, Msg.dirCreated b ∉ r.msgs) := by
  refine ⟨⟨reportOnly w.source w.target, [], []⟩, ⟨reportOnly w'.source w'.target, [], []⟩,
    main_run_no_move w h, main_run_no_move w' h', ?_, rfl, rfl, ?_⟩
  · rw [hs, ht]
  · exact fun b => dirCreated_not_mem_reportOnly _ _ b

/-- Witness for C5 at the sample report-only world. -/
theorem no_move_no_mutation_witness :
    wPlain.moveFlag = false ∧
    (∃ r r', main_run wPlain = some r ∧ main_run wPlain = some r' ∧ r.msgs = r'.msgs ∧
      r.srcMoves = [] ∧ r.tgtMoves = [] ∧ (∀ b, Msg.dirCreated b ∉ r.msgs)) :=
  ⟨rfl, no_move_no_mutation wPlain wPlain rfl rfl rfl rfl⟩

/-- C6: when move is requested, the source side has unmatched stems, and
creating the source-side `notfound` directory fails, the error is reported,
no file of that side is even attempted (its move list is empty), and the run
still performs the target side's processing in full. -/
theorem mkdir_failure_aborts_side (w : World) (hm : w.moveFlag = true)
    (hne : w.srcEnv.notfoundExists = false) (hmk : w.srcEnv.mkdirOk = false)
    (hd : (missingInTarget w).isEmpty = false) :
    ∃ r m2 a2, main_run w = some r ∧ r.srcMoves = [] ∧
      Msg.mkdirError w.source.name ∈ r.msgs ∧
      process_differences w.target.name (missingInSource w) (tgtStemMap w)
        w.source.name w.moveFlag w.tgtEnv = some (m2, a2) ∧
      r.tgtMoves = a2 ∧ (∀ x ∈ m2, x ∈ r.msgs) := by
  have h1 : process_differences w.source.name (missingInTarget w) (srcStemMap w)
      w.target.name w.moveFlag w.srcEnv =
      some ([Msg.diffHeader (missingInTarget w).length w.target.name w.source.name,
             Msg.mkdirError w.source.name], []) := by
    rw [hm]
    exact process_differences_mkdirFail _ _ _ _ _ hd hne hmk
  have h2some := process_differences_isSome w.target.name w.source.name (missingInSource w)
      (tgtStemMap w) w.moveFlag w.tgtEnv (diffStems_subset_keys _ _)
  obtain ⟨p2, hp2⟩ := Option.isSome_iff_exists.mp h2some
  obtain ⟨m2, a2⟩ := p2
  have hbool : ((missingInTarget w).isEmpty && (missingInSource w).isEmpty) = false := by
    rw [hd]
    rfl
  have hmain := main_run_split w hbool h1 hp2
  refine ⟨_, m2, a2, hmain, rfl, ?_, hp2, rfl, ?_⟩
  · simp
  · intro x hx
    simp [hx]

/-- Witness for C6 at a world whose source-side `mkdir` fails. -/
theorem mkdir_failure_aborts_side_witness :
    wMk.moveFlag = true ∧ wMk.srcEnv.notfoundExists = false ∧ wMk.srcEnv.mkdirOk = false ∧
    (missingInTarget wMk).isEmpty = false ∧
    (∃ r m2 a2, main_run wMk = some r ∧ r.srcMoves = [] ∧
      Msg.mkdirError wMk.source.name ∈ r.msgs ∧
      process_differences wMk.target.name (missingInSource wMk) (tgtStemMap wMk)
        wMk.source.name wMk.moveFlag wMk.tgtEnv = some (m2, a2) ∧
      r.tgtMoves = a2 ∧ (∀ x ∈ m2, x ∈ r.msgs)) :=
  ⟨rfl, rfl, rfl, by decide,
   mkdir_failure_aborts_side wMk rfl rfl rfl (by decide)⟩

/-- C7: under the move flag (with the `notfound` directory available or
creatable), a move is attempted for every filename associated with each
unmatched stem — one diff entry per stem, all of its files relocated — and a
single failed move is logged without preventing the attempts for the
remaining files and stems. -/
theorem move_attempts_every_file (baseName desc : String) (diff : List String)
    (m : StemMap) (env : MoveEnv) (ms : List Msg) (acts : List (String × Bool))
    (hok : env.notfoundExists = true ∨ env.mkdirOk = true)
    (h : process_differences baseName diff m desc true env = some (ms, acts)) :
    ∀ s ∈ diff, Msg.stemLine s ∈ ms ∧ ∃ files, lookupStem m s = some files ∧
      ∀ f ∈ files, (f, env.moveOk f) ∈ acts ∧
        (env.moveOk f = true → Msg.moved f ∈ ms) ∧
        (env.moveOk f = false → Msg.moveFailed f ∈ ms) := by
  intro s hs
  have hd : diff.isEmpty = false := by
    cases diff with
    | nil => simp at hs
    | cons a l => rfl
  rw [process_differences, if_neg (by simp [hd])] at h
  have hneg : ¬ ((true && !env.notfoundExists && !env.mkdirOk) = true) := by
    rcases hok with h1 | h1 <;> simp [h1]
  simp only [if_neg hneg] at h
  cases hml : moveLoop m true env diff with
  | none => simp [hml] at h
  | some pr =>
    obtain ⟨ms0, acts0⟩ := pr
    simp only [hml, Option.some.injEq, Prod.mk.injEq] at h
    obtain ⟨h1, h2⟩ := h
    subst h2
    have lift : ∀ y ∈ ms0, y ∈ ms := by
      intro y hy
      rw [← h1]
      simp [hy]
    obtain ⟨files, hlook, hprops⟩ := moveLoop_spec hml s hs
    refine ⟨lift _ (stemLine_mem_moveLoop hml s hs), files, hlook, fun f hfl => ?_⟩
    obtain ⟨ha1, ha2, ha3⟩ := hprops f hfl
    exact ⟨ha1, fun hmv => lift _ (ha2 hmv), fun hmv => lift _ (ha3 hmv)⟩

/-- Witness for C7 at a stem with two files, one of whose moves fails. -/
theorem move_attempts_every_file_witness :
    (envMoveFail.notfoundExists = true ∨ envMoveFail.mkdirOk = true) ∧
    process_differences "A" ["b"] [("b", ["b.pdf", "b.txt"])] "B" true envMoveFail =
      some ([Msg.diffHeader 1 "B" "A", Msg.dirCreated "A", Msg.stemLine "b",
             Msg.moveFailed "b.pdf", Msg.moved "b.txt", Msg.moveSummary 1 "A",
             Msg.separator],
            [("b.pdf", false), ("b.txt", true)]) ∧
    (∀ s ∈ ["b"], Msg.stemLine s ∈
        [Msg.diffHeader 1 "B" "A", Msg.dirCreated "A", Msg.stemLine "b",
         Msg.moveFailed "b.pdf", Msg.moved "b.txt", Msg.moveSummary 1 "A", Msg.separator] ∧
      ∃ files, lookupStem [("b", ["b.pdf", "b.txt"])] s = some files ∧
        ∀ f ∈ files, (f, envMoveFail.moveOk f) ∈ [("b.pdf", false), ("b.txt", true)] ∧
          (envMoveFail.moveOk f = true → Msg.moved f ∈
            [Msg.diffHeader 1 "B" "A", Msg.dirCreated "A", Msg.stemLine "b",
             Msg.moveFailed "b.pdf", Msg.moved "b.txt", Msg.moveSummary 1 "A",
             Msg.separator]) ∧
          (envMoveFail.moveOk f = false → Msg.moveFailed f ∈
            [Msg.diffHeader 1 "B" "A", Msg.dirCreated "A", Msg.stemLine "b",
             Msg.moveFailed "b.pdf", Msg.moved "b.txt", Msg.moveSummary 1 "A",
             Msg.separator])) :=
  ⟨Or.inr rfl, rfl,
   move_attempts_every_file "A" "B" ["b"] [("b", ["b.pdf", "b.txt"])] envMoveFail
     _ _ (Or.inr rfl) rfl⟩

/-- C4 counterexample: with the move flag set, `notfound` absent, and its
creation failing, `process_differences` prints the count header and the
creation error but no stem line at all, so the full list of unmatched stems
is not printed "regardless of any failure in the move step". -/
theorem report_list_suppressed_on_mkdir_failure :
    process_differences "A" ["x"] [("x", ["x.txt"])] "B" true envMkdirFail =
      some ([Msg.diffHeader 1 "B" "A", Msg.mkdirError "A"], []) ∧
    Msg.stemLine "x" ∉ [Msg.diffHeader 1 "B" "A", Msg.mkdirError "A"] := by
  exact ⟨rfl, by decide⟩

/-- C4 (amended): an empty diff list produces no output and no action; a
non-empty list always gets its count header printed, and the full list of
unmatched stems is printed regardless of the move flag and of per-file move
failures — except when the move flag is set and creation of the missing
`notfound` directory fails, in which case only the header and the error
appear. -/
theorem report_count_and_list (baseName desc : String) (diff : List String)
    (m : StemMap) (mv : Bool) (env : MoveEnv) (ms : List Msg) (acts : List (String × Bool))
    (h : process_differences baseName diff m desc mv env = some (ms, acts)) :
    (diff = [] → ms = [] ∧ acts = []) ∧
    (diff ≠ [] → Msg.diffHeader diff.length desc baseName ∈ ms) ∧
    (diff ≠ [] → ¬(mv = true ∧ env.notfoundExists = false ∧ env.mkdirOk = false) →
      ∀ s ∈ diff, Msg.stemLine s ∈ ms) := by
  by_cases hde : diff.isEmpty = true
  · have hdiff : diff = [] := List.isEmpty_iff.mp hde
    rw [process_differences, if_pos hde] at h
    injection h with h
    injection h with h1 h2
    refine ⟨fun _ => ⟨h1.symm, h2.symm⟩, fun hne => absurd hdiff hne,
      fun hne _ => absurd hdiff hne⟩
  · have hd : diff.isEmpty = false := by
      cases hh : diff.isEmpty
      · rfl
      · exact absurd hh hde
    have hne : diff ≠ [] := by
      intro heq
      rw [heq] at hd
      simp at hd
    rw [process_differences, if_neg (by simp [hd])] at h
    by_cases hmk : (mv && !env.notfoundExists && !env.mkdirOk) = true
    · simp only [if_pos hmk, Option.some.injEq, Prod.mk.injEq] at h
      obtain ⟨h1, h2⟩ := h
      subst h1
      rw [Bool.and_eq_true, Bool.and_eq_true, Bool.not_eq_true', Bool.not_eq_true'] at hmk
      refine ⟨fun heq => absurd heq hne, fun _ => List.mem_cons_self _ _, fun _ hcond => ?_⟩
      exact absurd ⟨hmk.1.1, hmk.1.2, hmk.2⟩ hcond
    · simp only [if_neg hmk] at h
      cases hml : moveLoop m mv env diff with
      | none => simp [hml] at h
      | some pr =>
        obtain ⟨ms0, acts0⟩ := pr
        simp only [hml, Option.some.injEq, Prod.mk.injEq] at h
        obtain ⟨h1, h2⟩ := h
        refine ⟨fun heq => absurd heq hne, fun _ => ?_, fun _ _ s hs => ?_⟩
        · rw [← h1]
          simp
        · rw [← h1]
          have := stemLine_mem_moveLoop hml s hs
          simp [this]

/-- Witness for the amended C4 at a plain report-only call. -/
theorem report_count_and_list_witness :
    process_differences "A" ["x"] [("x", ["x.txt"])] "B" false envOk =
      some ([Msg.diffHeader 1 "B" "A", Msg.stemLine "x", Msg.separator], []) ∧
    ((["x"] : List String) = [] →
      ([Msg.diffHeader 1 "B" "A", Msg.stemLine "x", Msg.separator] : List Msg) = [] ∧
      ([] : List (String × Bool)) = []) ∧
    ((["x"] : List String) ≠ [] → Msg.diffHeader 1 "B" "A" ∈
      [Msg.diffHeader 1 "B" "A", Msg.stemLine "x", Msg.separator]) ∧
    ((["x"] : List String) ≠ [] →
      ¬(false = true ∧ envOk.notfoundExists = false ∧ envOk.mkdirOk = false) →
      ∀ s ∈ (["x"] : List String), Msg.stemLine s ∈
        [Msg.diffHeader 1 "B" "A", Msg.stemLine "x", Msg.separator]) := by
  have h : process_differences "A" ["x"] [("x", ["x.txt"])] "B" false envOk =
      some ([Msg.diffHeader 1 "B" "A", Msg.stemLine "x", Msg.separator], []) := rfl
  have hc := report_count_and_list "A" "B" ["x"] [("x", ["x.txt"])] false envOk
    [Msg.diffHeader 1 "B" "A", Msg.stemLine "x", Msg.separator] [] h
  exact ⟨h, hc.1, hc.2.1, hc.2.2⟩

/-- C3 (code bug): the file ends with two identical
`if __name__ == "__main__": main()` blocks, so one process run executes the
whole pipeline twice; on directories with matching stems the script prints
the "directories match" message twice, while a single `main()` call — as the
claim describes — prints it exactly once and invokes the Reporter/Mover on
neither side. -/
theorem script_runs_pipeline_twice :
    ((script_run wMatch).getD []).count Msg.dirsMatch = 2 ∧
    (∀ r, main_run wMatch = some r →
      r.msgs.count Msg.dirsMatch = 1 ∧ r.srcMoves = [] ∧ r.tgtMoves = []) := by
  refine ⟨by decide, fun r hr => ?_⟩
  rw [main_run_no_move wMatch rfl] at hr
  injection hr with hr
  subst hr
  refine ⟨by decide, rfl, rfl⟩
